import Mathlib

/-!
Verification of the adaptive chunking, dispatch and reassembly pipeline of the
compendium-notes repository.  The TypeScript sources are shallowly embedded:
strings become `List Char`, byte payloads become `List ℕ`, JavaScript numbers
used as durations become `JSNum` (a finite rational, NaN, or ±Infinity), and
the external FFmpeg engine becomes an explicit function parameter giving, for
each requested cut, an exit code and the produced bytes.
-/

namespace CompendiumNotes

/-- JavaScript number values relevant to duration handling: a finite rational,
`NaN`, or positive / negative infinity (floating-point rounding is immaterial to
the control flow modelled here, so finite values are exact rationals). -/
inductive JSNum where
  | num (q : ℚ)
  | nan
  | posInf
  | negInf
deriving DecidableEq

/-- The JavaScript comparison `x <= 0`: false for `NaN` and `Infinity`, true
for `-Infinity`. -/
def JSNum.leZero : JSNum → Bool
  | .num q => decide (q ≤ 0)
  | .nan => false
  | .posInf => false
  | .negInf => true

/-- `Number.isFinite`. -/
def JSNum.isFinite : JSNum → Bool
  | .num _ => true
  | _ => false

/-- The rational value of a finite `JSNum` (only used under an `isFinite`
guard, mirroring the source's safety check). -/
def JSNum.getFinite : JSNum → ℚ
  | .num q => q
  | _ => 0

/-- `src/lib/ffmpeg-chunker.ts`, interface `ChunkInfo`: one temporal chunk.
The `File` payload is the byte output of the FFmpeg invocation. -/
structure TChunk where
  payload : List ℕ
  startTime : ℚ
  endTime : ℚ
  index : ℕ
deriving DecidableEq

/-- `src/lib/ffmpeg-chunker.ts`, interface `TemporalChunkingResult` (the
`format` string field is omitted; no claim mentions it). -/
structure TemporalChunkingResult where
  chunks : List TChunk
  totalDuration : ℚ
deriving DecidableEq

/-- The `while (currentTime < duration && chunkIndex < MAX_CHUNKS)` loop of
`chunkFileTemporally` (`src/lib/ffmpeg-chunker.ts:191-268`).  `exec s d` models
the FFmpeg invocation `-ss s -t d`, returning an exit code and the bytes of the
produced chunk file; a non-zero exit code aborts the whole operation.  The
`fuel` argument is `MAX_CHUNKS - chunkIndex` and only realises termination of
the source loop; together with the `chunkIndex < 100` test it reproduces the
source's bound exactly. -/
def chunkLoop (exec : ℚ → ℚ → ℕ × List ℕ) (duration csec osec : ℚ) :
    ℕ → ℚ → ℕ → Except String (List TChunk)
  | 0, _, _ => .ok []
  | fuel + 1, currentTime, chunkIndex =>
    if currentTime < duration ∧ chunkIndex < 100 then
      let startSeconds := currentTime
      let endSeconds := min (currentTime + csec + osec) duration
      let res := exec startSeconds (endSeconds - startSeconds)
      if res.1 ≠ 0 then
        .error "FFmpeg failed"
      else
        match chunkLoop exec duration csec osec fuel (currentTime + csec) (chunkIndex + 1) with
        | .ok rest => .ok (⟨res.2, startSeconds, endSeconds, chunkIndex⟩ :: rest)
        | .error e => .error e
    else
      .ok []

/-- `chunkFileTemporally` (`src/lib/ffmpeg-chunker.ts:125-289`): throws
`Invalid duration provided` when `totalDuration <= 0` (line 139), falls back to
a single chunk holding the whole file when the duration is non-finite
(lines 158-170), and otherwise runs the chunking loop with
`chunkDurationSeconds = chunkDurationMinutes * 60`. -/
def chunkFileTemporally (fileBytes : List ℕ) (exec : ℚ → ℚ → ℕ × List ℕ)
    (totalDuration : JSNum) (chunkDurationMinutes overlapSeconds : ℚ) :
    Except String TemporalChunkingResult :=
  if totalDuration.leZero then
    .error "Invalid duration provided"
  else if totalDuration.isFinite then
    let duration := totalDuration.getFinite
    (chunkLoop exec duration (chunkDurationMinutes * 60) overlapSeconds 100 0 0).map
      fun chunks => ⟨chunks, duration⟩
  else
    .ok ⟨[⟨fileBytes, 0, 0, 0⟩], 0⟩

/-- The chunk that iteration `k` of the loop produces: window
`[k·csec, min (k·csec + csec + osec) duration]`. -/
def mkTChunk (exec : ℚ → ℚ → ℕ × List ℕ) (duration csec osec : ℚ) (k : ℕ) : TChunk :=
  ⟨(exec (k * csec) (min (k * csec + csec + osec) duration - k * csec)).2,
   k * csec, min (k * csec + csec + osec) duration, k⟩

lemma chunkLoop_eq_map (exec : ℚ → ℚ → ℕ × List ℕ) (duration csec osec : ℚ)
    (hexec : ∀ s d, (exec s d).1 = 0) (hc : 0 < csec) :
    ∀ (fuel k : ℕ), 100 ≤ k + fuel →
      chunkLoop exec duration csec osec fuel ((k : ℚ) * csec) k =
        .ok ((List.range' k (min (⌈duration / csec⌉₊) 100 - k)).map
          (mkTChunk exec duration csec osec)) := by
  intro fuel
  induction fuel with
  | zero =>
    intro k hk
    have h1 : min (⌈duration / csec⌉₊) 100 - k = 0 := by
      have := Nat.min_le_right (⌈duration / csec⌉₊) 100
      omega
    simp [chunkLoop, h1]
  | succ fuel ih =>
    intro k hk
    by_cases hcond : (k : ℚ) * csec < duration ∧ k < 100
    · have hklt : k < ⌈duration / csec⌉₊ := by
        rw [Nat.lt_ceil]
        exact (lt_div_iff₀ hc).mpr hcond.1
      have hkmin : k < min (⌈duration / csec⌉₊) 100 := lt_min hklt hcond.2
      have harg : ((k : ℚ) * csec + csec) = ((k + 1 : ℕ) : ℚ) * csec := by
        push_cast; ring
      have hrec := ih (k + 1) (by omega)
      have hsplit : min (⌈duration / csec⌉₊) 100 - k
          = (min (⌈duration / csec⌉₊) 100 - (k + 1)) + 1 := by omega
      rw [chunkLoop]
      simp only [hcond, and_self, if_true, hexec, ne_eq, not_true_eq_false, if_false,
        ite_false]
      rw [harg, hrec, hsplit, List.range'_succ, List.map_cons]
      have e1 : ((k : ℚ) + 1) * csec + osec = (k : ℚ) * csec + csec + osec := by ring
      simp [mkTChunk, hexec, e1]
    · have h1 : min (⌈duration / csec⌉₊) 100 - k = 0 := by
        rcases not_and_or.mp hcond with h | h
        · have : ⌈duration / csec⌉₊ ≤ k := by
            by_contra hlt
            exact h ((lt_div_iff₀ hc).mp (Nat.lt_ceil.mp (by omega)))
          have := Nat.min_le_left (⌈duration / csec⌉₊) 100
          omega
        · have := Nat.min_le_right (⌈duration / csec⌉₊) 100
          omega
      rw [chunkLoop]
      simp [hcond, h1]

lemma chunkFileTemporally_finite (fileBytes : List ℕ) (exec : ℚ → ℚ → ℕ × List ℕ)
    (duration C O : ℚ) (hexec : ∀ s d, (exec s d).1 = 0)
    (hd : 0 < duration) (hC : 0 < C) :
    chunkFileTemporally fileBytes exec (.num duration) C O =
      .ok ⟨(List.range (min (⌈duration / (C * 60)⌉₊) 100)).map
        (mkTChunk exec duration (C * 60) O), duration⟩ := by
  have hcsec : (0 : ℚ) < C * 60 := by positivity
  have h0 : ((0 : ℕ) : ℚ) * (C * 60) = 0 := by push_cast; ring
  have hloop := chunkLoop_eq_map exec duration (C * 60) O hexec hcsec 100 0 (by omega)
  rw [h0] at hloop
  have hnle : ¬ (duration ≤ 0) := not_le.mpr hd
  have hlz : (JSNum.num duration).leZero = false := by
    simp [JSNum.leZero, hnle]
  rw [chunkFileTemporally, hlz]
  simp only [Bool.false_eq_true, if_false, JSNum.isFinite, if_true, JSNum.getFinite]
  rw [hloop]
  simp [Except.map, List.range_eq_range']

lemma window_cover (csec osec D : ℚ) (hc : 0 < csec) (hO : 0 ≤ osec) (hD : 0 < D)
    (x : ℚ) :
    (∃ k < ⌈D / csec⌉₊,
        x ∈ Set.Icc ((k : ℚ) * csec) (min ((k : ℚ) * csec + csec + osec) D)) ↔
      x ∈ Set.Icc 0 D := by
  set n := ⌈D / csec⌉₊ with hn
  have hn1 : 1 ≤ n := Nat.ceil_pos.mpr (div_pos hD hc)
  have hDle : D ≤ (n : ℚ) * csec := by
    have := Nat.le_ceil (D / csec)
    calc D = D / csec * csec := by field_simp
    _ ≤ (n : ℚ) * csec := by
        exact mul_le_mul_of_nonneg_right this hc.le
  constructor
  · rintro ⟨k, hk, hx1, hx2⟩
    exact ⟨le_trans (by positivity) hx1, le_trans hx2 (min_le_right _ _)⟩
  · rintro ⟨hx0, hxD⟩
    by_cases hj : ⌊x / csec⌋₊ < n
    · refine ⟨⌊x / csec⌋₊, hj, ?_, ?_⟩
      · calc ((⌊x / csec⌋₊ : ℚ)) * csec ≤ x / csec * csec :=
            mul_le_mul_of_nonneg_right (Nat.floor_le (by positivity)) hc.le
        _ = x := by field_simp
      · refine le_min ?_ hxD
        have hlt : x / csec < (⌊x / csec⌋₊ : ℚ) + 1 := Nat.lt_floor_add_one _
        have : x < ((⌊x / csec⌋₊ : ℚ) + 1) * csec := by
          calc x = x / csec * csec := by field_simp
          _ < ((⌊x / csec⌋₊ : ℚ) + 1) * csec := by
              exact mul_lt_mul_of_pos_right hlt hc
        nlinarith
    · have hcast : ((n - 1 : ℕ) : ℚ) = (n : ℚ) - 1 := by
        have : (1 : ℕ) ≤ n := hn1
        push_cast [Nat.cast_sub this]
        ring
      refine ⟨n - 1, by omega, ?_, ?_⟩
      · rw [hcast]
        have hjx : (n : ℚ) ≤ x / csec := by
          have h1 : ((⌊x / csec⌋₊ : ℚ)) ≤ x / csec := Nat.floor_le (by positivity)
          have h2 : (n : ℚ) ≤ (⌊x / csec⌋₊ : ℚ) := by exact_mod_cast not_lt.mp hj
          linarith
        have : (n : ℚ) * csec ≤ x := by
          calc (n : ℚ) * csec ≤ x / csec * csec := mul_le_mul_of_nonneg_right hjx hc.le
          _ = x := by field_simp
        nlinarith
      · rw [hcast]
        refine le_min ?_ hxD
        have : ((n : ℚ) - 1) * csec + csec = (n : ℚ) * csec := by ring
        rw [this]
        linarith

/-- C1 (amended): for a finite duration `D > 0`, chunk length `C > 0` minutes
and overlap `O ≥ 0` seconds, with the external transcoder succeeding on every
cut, `chunkFileTemporally` returns `min ⌈D / (60·C)⌉ 100` chunks (the source
hard-caps the count at `MAX_CHUNKS = 100`); chunk `k` has window
`[k·60C, min (k·60C + 60C + O) D]`; when the cap is not hit the windows union
to exactly `[0, D]`, consecutive windows overlap by
`min O (D - (k+1)·60C)` seconds, which is exactly `O` for every pair not
involving the last window provided `O ≤ 60·C`. -/
theorem C1_temporal_chunker_windows
    (fileBytes : List ℕ) (exec : ℚ → ℚ → ℕ × List ℕ) (D C O : ℚ)
    (r : TemporalChunkingResult)
    (hexec : ∀ s d, (exec s d).1 = 0)
    (hD : 0 < D) (hC : 0 < C) (hO : 0 ≤ O)
    (hr : chunkFileTemporally fileBytes exec (.num D) C O = .ok r) :
    r.chunks.length = min (⌈D / (C * 60)⌉₊) 100 ∧
    (∀ k (hk : k < r.chunks.length),
      (r.chunks.get ⟨k, hk⟩).startTime = (k : ℚ) * (C * 60) ∧
      (r.chunks.get ⟨k, hk⟩).endTime = min ((k : ℚ) * (C * 60) + C * 60 + O) D ∧
      (r.chunks.get ⟨k, hk⟩).index = k) ∧
    (⌈D / (C * 60)⌉₊ ≤ 100 →
      (⋃ c ∈ r.chunks, Set.Icc c.startTime c.endTime) = Set.Icc 0 D) ∧
    (⌈D / (C * 60)⌉₊ ≤ 100 →
      ∀ k (hk : k + 1 < r.chunks.length),
        (r.chunks.get ⟨k, Nat.lt_of_succ_lt hk⟩).endTime -
            (r.chunks.get ⟨k + 1, hk⟩).startTime
          = min O (D - ((k : ℚ) + 1) * (C * 60))) ∧
    (⌈D / (C * 60)⌉₊ ≤ 100 → O ≤ C * 60 →
      ∀ k (hk : k + 2 < r.chunks.length),
        (r.chunks.get ⟨k, Nat.lt_of_succ_lt (Nat.lt_of_succ_lt hk)⟩).endTime -
            (r.chunks.get ⟨k + 1, Nat.lt_of_succ_lt hk⟩).startTime = O) := by
  have hcsec : (0 : ℚ) < C * 60 := by positivity
  rw [chunkFileTemporally_finite fileBytes exec D C O hexec hD hC] at hr
  have hrr := (Except.ok.injEq _ _).mp hr
  subst hrr
  set n := ⌈D / (C * 60)⌉₊ with hn
  have hn1 : 1 ≤ n := Nat.ceil_pos.mpr (div_pos hD hcsec)
  have hlen : ((List.range (min n 100)).map (mkTChunk exec D (C * 60) O)).length
      = min n 100 := by simp
  have hget : ∀ k (hk : k < min n 100),
      ((List.range (min n 100)).map (mkTChunk exec D (C * 60) O)).get
          ⟨k, by simpa using hk⟩ = mkTChunk exec D (C * 60) O k := by
    intro k hk
    simp [List.get_eq_getElem]
  refine ⟨hlen, ?_, ?_, ?_, ?_⟩
  · intro k hk
    rw [hlen] at hk
    rw [hget k hk]
    exact ⟨rfl, rfl, rfl⟩
  · intro hcap
    have hmin : min n 100 = n := min_eq_left hcap
    ext x
    have hmem : (x ∈ ⋃ c ∈ (List.range (min n 100)).map (mkTChunk exec D (C * 60) O),
        Set.Icc c.startTime c.endTime) ↔
        ∃ k < n, x ∈ Set.Icc ((k : ℚ) * (C * 60))
          (min ((k : ℚ) * (C * 60) + C * 60 + O) D) := by
      simp only [Set.mem_iUnion, List.mem_map, List.mem_range, hmin]
      constructor
      · rintro ⟨c, ⟨⟨k, hk, rfl⟩, hx⟩⟩
        exact ⟨k, hk, hx⟩
      · rintro ⟨k, hk, hx⟩
        exact ⟨mkTChunk exec D (C * 60) O k, ⟨⟨k, hk, rfl⟩, hx⟩⟩
    rw [hmem]
    exact window_cover (C * 60) O D hcsec hO hD x
  · intro hcap k hk
    rw [hlen] at hk
    rw [hget k (Nat.lt_of_succ_lt hk), hget (k + 1) hk]
    simp only [mkTChunk]
    rw [← min_sub_sub_right]
    congr 1 <;> push_cast <;> ring
  · intro hcap hOC k hk
    rw [hlen] at hk
    rw [hget k (Nat.lt_of_succ_lt (Nat.lt_of_succ_lt hk)), hget (k + 1) (Nat.lt_of_succ_lt hk)]
    simp only [mkTChunk]
    have hmin : min n 100 = n := min_eq_left hcap
    rw [hmin] at hk
    have hlast : ((n : ℚ) - 1) * (C * 60) < D := by
      have h1 : (n - 1 : ℕ) < n := by omega
      have h2 : ((n - 1 : ℕ) : ℚ) < D / (C * 60) := Nat.lt_ceil.mp (by omega)
      have h3 : ((n - 1 : ℕ) : ℚ) = (n : ℚ) - 1 := by
        push_cast [Nat.cast_sub hn1]; ring
      rw [h3] at h2
      calc ((n : ℚ) - 1) * (C * 60) < D / (C * 60) * (C * 60) :=
        mul_lt_mul_of_pos_right h2 hcsec
      _ = D := by field_simp
    have hknq : (k : ℚ) + 2 ≤ (n : ℚ) - 1 := by
      have : k + 3 ≤ n := by omega
      push_cast
      have : ((k : ℚ) + 3) ≤ (n : ℚ) := by exact_mod_cast this
      linarith
    have hend : (k : ℚ) * (C * 60) + C * 60 + O ≤ D := by
      have h1 : ((k : ℚ) + 2) * (C * 60) ≤ ((n : ℚ) - 1) * (C * 60) :=
        mul_le_mul_of_nonneg_right hknq hcsec.le
      nlinarith
    rw [min_eq_left hend]
    push_cast
    ring

/-- C1 witness instance: chunking a 30-minute recording into 20-minute pieces
with a 30-second overlap: two chunks, windows `[0, 1230]` and `[1200, 1800]`. -/
theorem C1_temporal_chunker_windows_witness :
    chunkFileTemporally [] (fun _ _ => (0, [])) (.num 1800) 20 30 =
      .ok ⟨[⟨[], 0, 1230, 0⟩, ⟨[], 1200, 1800, 1⟩], 1800⟩ ∧
    (⟨[⟨[], 0, 1230, 0⟩, ⟨[], 1200, 1800, 1⟩], 1800⟩ :
        TemporalChunkingResult).chunks.length = min ⌈(1800 : ℚ) / (20 * 60)⌉₊ 100 := by
  have hceil : ⌈(1800 : ℚ) / (20 * 60)⌉₊ = 2 := by
    rw [show (1800 : ℚ) / (20 * 60) = 3 / 2 by norm_num]
    rw [Nat.ceil_eq_iff (by norm_num)]
    norm_num
  have hr : chunkFileTemporally [] (fun _ _ => (0, [])) (.num 1800) 20 30 =
      .ok ⟨[⟨[], 0, 1230, 0⟩, ⟨[], 1200, 1800, 1⟩], 1800⟩ := by
    rw [chunkFileTemporally_finite [] (fun _ _ => (0, [])) 1800 20 30
      (fun _ _ => rfl) (by norm_num) (by norm_num), hceil]
    rw [show ((20 : ℚ) * 60) = 1200 by norm_num]
    simp only [show min 2 100 = 2 from rfl, List.range_succ, List.range_zero,
      List.nil_append, List.singleton_append, List.map_cons, List.map_nil]
    norm_num [mkTChunk, min_def, TChunk.mk.injEq, TemporalChunkingResult.mk.injEq,
      Except.ok.injEq]
  refine ⟨hr, ?_⟩
  have h := (C1_temporal_chunker_windows [] (fun _ _ => (0, [])) 1800 20 30 _
    (fun _ _ => rfl) (by norm_num) (by norm_num) (by norm_num) hr).1
  exact h

/-- C1 counterexample to the claim as stated: with `D = 6060` seconds and
`C = 1` minute (so `⌈D / 60C⌉ = 101 > 100`), the source's `MAX_CHUNKS = 100`
cap makes `chunkFileTemporally` return 100 chunks, not `⌈D / (60·C)⌉ = 101`,
and the windows then do not reach `D`. -/
theorem C1_temporal_chunker_windows_counterexample :
    (chunkFileTemporally [] (fun s d => (0, [])) (.num 6060) 1 0).map
        (fun r => r.chunks.length) = .ok 100 ∧
    ⌈(6060 : ℚ) / (1 * 60)⌉₊ = 101 := by
  constructor
  · rw [chunkFileTemporally_finite [] (fun s d => (0, [])) 6060 1 0
      (fun s d => rfl) (by norm_num) (by norm_num)]
    have h101 : ⌈(6060 : ℚ) / (1 * 60)⌉₊ = 101 := by
      rw [show (6060 : ℚ) / (1 * 60) = 101 by norm_num]
      exact Nat.ceil_natCast 101
    rw [h101]
    simp [Except.map]
  · rw [show (6060 : ℚ) / (1 * 60) = 101 by norm_num]
    exact Nat.ceil_natCast 101

/-- C4 (amended): on a non-finite provided duration (`NaN` or `+Infinity`) the
Temporal Chunker returns a single chunk containing the whole file rather than
failing; but on a zero, negative, or `-Infinity` duration the guard at
`ffmpeg-chunker.ts:139` (`totalDuration <= 0`) fires first and the function
throws `Invalid duration provided` instead of degrading. -/
theorem C4_invalid_duration_single_chunk
    (fileBytes : List ℕ) (exec : ℚ → ℚ → ℕ × List ℕ) (C O : ℚ) :
    chunkFileTemporally fileBytes exec .nan C O =
      .ok ⟨[⟨fileBytes, 0, 0, 0⟩], 0⟩ ∧
    chunkFileTemporally fileBytes exec .posInf C O =
      .ok ⟨[⟨fileBytes, 0, 0, 0⟩], 0⟩ ∧
    (∀ d : ℚ, d ≤ 0 → chunkFileTemporally fileBytes exec (.num d) C O =
      .error "Invalid duration provided") ∧
    chunkFileTemporally fileBytes exec .negInf C O =
      .error "Invalid duration provided" := by
  refine ⟨rfl, rfl, ?_, rfl⟩
  intro d hd
  simp [chunkFileTemporally, JSNum.leZero, hd]

/-- C4 witness instance: `NaN` duration degrades to one whole-file chunk and a
zero duration throws, for a one-byte file. -/
theorem C4_invalid_duration_single_chunk_witness :
    chunkFileTemporally [7] (fun _ _ => (0, [])) .nan 20 30 =
      .ok ⟨[⟨[7], 0, 0, 0⟩], 0⟩ ∧
    chunkFileTemporally [7] (fun _ _ => (0, [])) (.num 0) 20 30 =
      .error "Invalid duration provided" := by
  have h := C4_invalid_duration_single_chunk [7] (fun _ _ => (0, [])) 20 30
  exact ⟨h.1, h.2.2.1 0 (by norm_num)⟩

/-- C4 counterexample to the claim as stated: a zero duration is "invalid",
yet the chunker throws `Invalid duration provided` (line 139-141 of
`ffmpeg-chunker.ts`) rather than returning a single whole-file chunk. -/
theorem C4_invalid_duration_single_chunk_counterexample :
    chunkFileTemporally [7] (fun _ _ => (0, [])) (.num 0) 20 30 =
      .error "Invalid duration provided" := by
  simp [chunkFileTemporally, JSNum.leZero]

/-! ### Timestamp scanning (`src/lib/gemini.ts`)

JavaScript strings are embedded as `List Char`.  The regular expression
`\[(\d{1,2}):(\d{2})(?::(\d{2}))?\]` is realised by an explicit scanner with
the same backtracking behaviour: at a `[` the engine first tries a two-digit
first group, falling back to one digit; the optional `:(\d{2})` group is tried
greedily and abandoned if the closing `]` does not follow. -/

/-- `parseInt` value of one ASCII digit character. -/
def charVal (c : Char) : ℕ := c.toNat - 48

/-- A matched timestamp marker: the numeric capture groups and the raw
matched text between the brackets (regex group 1 of `extractSegments`). -/
structure MarkerData where
  p1 : ℕ
  p2 : ℕ
  p3 : Option ℕ
  raw : List Char
deriving DecidableEq

/-- Parse `":" dd (":" dd)? "]"`, the part of the marker pattern after the
first digit group.  Returns the second and optional third group values, the raw
matched characters (without the closing bracket) and the number of characters
consumed (with the closing bracket). -/
def parseRest : List Char → Option (ℕ × Option ℕ × List Char × ℕ)
  | ':' :: c :: d :: rest =>
    if c.isDigit ∧ d.isDigit then
      match rest with
      | ':' :: e :: f :: ']' :: _ =>
        if e.isDigit ∧ f.isDigit then
          some (10 * charVal c + charVal d, some (10 * charVal e + charVal f),
            [':', c, d, ':', e, f], 7)
        else none
      | ']' :: _ => some (10 * charVal c + charVal d, none, [':', c, d], 4)
      | _ => none
    else none
  | _ => none

/-- Try to match the marker pattern immediately after an opening `[`.
Returns the marker data and the number of characters consumed after the `[`
(including the closing `]`). -/
def tryParseMarker : List Char → Option (MarkerData × ℕ)
  | a :: b :: rest =>
    if a.isDigit then
      if b.isDigit then
        match parseRest rest with
        | some (p2, p3, rawTail, k) =>
          some (⟨10 * charVal a + charVal b, p2, p3, a :: b :: rawTail⟩, 2 + k)
        | none =>
          match parseRest (b :: rest) with
          | some (p2, p3, rawTail, k) =>
            some (⟨charVal a, p2, p3, a :: rawTail⟩, 1 + k)
          | none => none
      else
        match parseRest (b :: rest) with
        | some (p2, p3, rawTail, k) =>
          some (⟨charVal a, p2, p3, a :: rawTail⟩, 1 + k)
        | none => none
    else none
  | _ => none

/-- Seconds denoted by a matched marker (`adjustTimestamps`, lines 28-39):
`HH:MM:SS` when the optional group matched, else `MM:SS`. -/
def MarkerData.totalSeconds (m : MarkerData) : ℕ :=
  match m.p3 with
  | some s => m.p1 * 3600 + m.p2 * 60 + s
  | none => m.p1 * 60 + m.p2

/-- `String(n).padStart(2, '0')`. -/
def pad2 (n : ℕ) : List Char :=
  let s := Nat.toDigits 10 n
  if s.length < 2 then '0' :: s else s

/-- The re-emission of a timestamp in `adjustTimestamps` (lines 45-53):
`[HH:MM:SS]` when `finalHours > 0`, else `[MM:SS]`, components padded. -/
def formatTS (t : ℕ) : List Char :=
  let h := t / 3600
  let m := t % 3600 / 60
  let s := t % 60
  if 0 < h then
    '[' :: (pad2 h ++ ':' :: pad2 m ++ ':' :: pad2 s ++ [']'])
  else
    '[' :: (pad2 m ++ ':' :: pad2 s ++ [']'])

/-- The spec's canonical marker formatting of `t` seconds: `[HH:MM:SS]` once
the value reaches one hour, else `[MM:SS]`, components zero-padded to two
digits (format chosen by magnitude). -/
def canonicalTimestamp (t : ℕ) : List Char :=
  if 3600 ≤ t then
    '[' :: (pad2 (t / 3600) ++ ':' :: pad2 (t % 3600 / 60) ++ ':' :: pad2 (t % 60) ++ [']'])
  else
    '[' :: (pad2 (t / 60) ++ ':' :: pad2 (t % 60) ++ [']'])

lemma formatTS_eq_canonical (t : ℕ) : formatTS t = canonicalTimestamp t := by
  unfold formatTS canonicalTimestamp
  by_cases h : 3600 ≤ t
  · have hpos : 0 < t / 3600 := Nat.div_pos h (by norm_num)
    simp [h, hpos]
  · have hz : t / 3600 = 0 := Nat.div_eq_of_lt (by omega)
    have hm : t % 3600 = t := Nat.mod_eq_of_lt (by omega)
    simp [h, hz, hm]

/-- The `text.replace(timestampPattern, ...)` traversal of `adjustTimestamps`:
characters that do not start a marker pass through unchanged, and every
matched marker is replaced by the formatting of its seconds plus the offset.
`fuel` bounds the recursion by the text length. -/
def adjustGo (offsetMinutes : ℕ) : ℕ → List Char → List Char
  | _, [] => []
  | 0, l => l
  | fuel + 1, c :: rest =>
    if c = '[' then
      match tryParseMarker rest with
      | some (M, k) =>
        formatTS (M.totalSeconds + offsetMinutes * 60) ++
          adjustGo offsetMinutes fuel (rest.drop k)
      | none => c :: adjustGo offsetMinutes fuel rest
    else c :: adjustGo offsetMinutes fuel rest

/-- `adjustTimestamps` (`src/lib/gemini.ts:20-55`): returns the text unchanged
when the offset is zero, otherwise rewrites every matched marker. -/
def adjustTimestamps (text : List Char) (offsetMinutes : ℕ) : List Char :=
  if offsetMinutes = 0 then text else adjustGo offsetMinutes text.length text

/-! ### Segment extraction and overlap removal (`src/lib/gemini.ts:57-210`) -/

/-- `interface TranscriptSegment`. -/
structure Segment where
  timestamp : List Char
  content : List Char
deriving DecidableEq

/-- `String.prototype.trim`. -/
def trimChars (l : List Char) : List Char :=
  ((l.dropWhile Char.isWhitespace).reverse.dropWhile Char.isWhitespace).reverse

/-- Push the pending segment (timestamp seen so far plus trimmed buffered
content), if any; used at each marker and at the end of the text. -/
def finalizeSeg (ts : Option (List Char)) (buf : List Char) : List Segment :=
  match ts with
  | some t => if trimChars buf = [] then [] else [⟨t, trimChars buf⟩]
  | none => []

/-- The `while ((match = timestampPattern.exec(text)) !== null)` loop of
`extractSegments` (lines 65-95); text before the first marker is discarded. -/
def extractGo : ℕ → List Char → Option (List Char) → List Char → List Segment
  | _, [], ts, buf => finalizeSeg ts buf
  | 0, _ :: _, ts, buf => finalizeSeg ts buf
  | fuel + 1, c :: rest, ts, buf =>
    if c = '[' then
      match tryParseMarker rest with
      | some (M, k) =>
        finalizeSeg ts buf ++ extractGo fuel (rest.drop k) (some M.raw) []
      | none => extractGo fuel rest ts (buf ++ [c])
    else extractGo fuel rest ts (buf ++ [c])

/-- `extractSegments` (`src/lib/gemini.ts:65-95`). -/
def extractSegments (text : List Char) : List Segment :=
  extractGo text.length text none []

/-- `normalizeForComparison` (`src/lib/gemini.ts:100-105`): lowercase, strip
`.,!?;:`, collapse whitespace runs to single spaces, trim. -/
def removePunct (l : List Char) : List Char :=
  l.filter fun c =>
    !(c == '.' || c == ',' || c == '!' || c == '?' || c == ';' || c == ':')

/-- `replace(/\s+/g, ' ')`. -/
def collapseWs : List Char → List Char
  | [] => []
  | [c] => if c.isWhitespace then [' '] else [c]
  | c :: d :: rest =>
    if c.isWhitespace then
      if d.isWhitespace then collapseWs (d :: rest)
      else ' ' :: collapseWs (d :: rest)
    else c :: collapseWs (d :: rest)

def normalizeForComparison (text : List Char) : List Char :=
  trimChars (collapseWs (removePunct (text.map Char.toLower)))

/-- `text.split(' ')` (single-space separator, empty parts kept). -/
def wordsSplit : List Char → List (List Char)
  | [] => [[]]
  | c :: rest =>
    if c = ' ' then [] :: wordsSplit rest
    else
      match wordsSplit rest with
      | w :: ws => (c :: w) :: ws
      | [] => [[c]]

/-- `String.prototype.includes`: contiguous substring test. -/
def containsSub (big small : List Char) : Bool :=
  (List.range (big.length + 1)).any fun i => (big.drop i).take small.length == small

/-- `calculateSimilarity` (`src/lib/gemini.ts:185-210`); the source's local
variables `words1`, `words2` and `matches` are inlined. -/
def calculateSimilarity (text1 text2 : List Char) : ℚ :=
  if text1 = text2 then 1
  else if containsSub text1 text2 || containsSub text2 text1 then
    (min text1.length text2.length : ℚ) / (max text1.length text2.length : ℚ)
  else
    ((((wordsSplit text1).zip (wordsSplit text2)).countP fun p => p.1 == p.2) : ℚ) /
      (max (wordsSplit text1).length (wordsSplit text2).length : ℚ)

/-- The per-pair test of `detectAndRemoveOverlap` (lines 143-163): both
normalized contents must exceed 20 characters and the similarity must exceed
`0.85` (written `85/100` here). -/
def segMatch (a b : Segment) : Bool :=
  if 20 < (normalizeForComparison a.content).length ∧
      20 < (normalizeForComparison b.content).length then
    decide ((85 : ℚ) / 100 <
      calculateSimilarity (normalizeForComparison a.content)
        (normalizeForComparison b.content))
  else false

/-- Index search used below (first matching index, counting from `i`). -/
def findIdxFrom (p : Segment → Bool) : ℕ → List Segment → Option ℕ
  | _, [] => none
  | i, b :: bs => if p b then some i else findIdxFrom p (i + 1) bs

/-- The double loop of `detectAndRemoveOverlap` over the last segments of the
previous chunk (outer, stops at the first hit) and the first segments of the
current chunk (inner); returns the matched index `k` in the current chunk's
first segments (`removeUpToIndex = k + 1`). -/
def findOverlap : List Segment → List Segment → Option ℕ
  | [], _ => none
  | a :: restLast, firstSegs =>
    match findIdxFrom (fun b => segMatch a b) 0 firstSegs with
    | some k => some k
    | none => findOverlap restLast firstSegs

/-- Re-rendering of a segment: `` `[${s.timestamp}] ${s.content}` ``. -/
def renderSeg (s : Segment) : List Char :=
  '[' :: (s.timestamp ++ ']' :: ' ' :: s.content)

/-- `remainingSegments.map(...).join('\n')`. -/
def renderSegs (segs : List Segment) : List Char :=
  List.intercalate ['\n'] (segs.map renderSeg)

/-- The body of `detectAndRemoveOverlap` for one consecutive pair
(lines 121-174): compare the last ≤5 segments of the previous chunk with the
first ≤5 segments of the current one; on a hit drop everything in the current
chunk up to and including the matched segment. -/
def trimOverlap (prevText currText : List Char) : List Char :=
  if (extractSegments prevText).isEmpty || (extractSegments currText).isEmpty then
    currText
  else
    match findOverlap
        ((extractSegments prevText).drop
          ((extractSegments prevText).length - min 5 (extractSegments prevText).length))
        ((extractSegments currText).take (min 5 (extractSegments currText).length)) with
    | some k => renderSegs ((extractSegments currText).drop (k + 1))
    | none => currText

/-- The chunk records fed to `detectAndRemoveOverlap`. -/
structure RChunk where
  text : List Char
  index : ℕ
  offsetMinutes : ℕ
deriving DecidableEq

/-- Each chunk after the first is compared against the previous chunk's
original text. -/
def resolveRest (prev : RChunk) : List RChunk → List (List Char)
  | [] => []
  | c :: rest => trimOverlap prev.text c.text :: resolveRest c rest

/-- `detectAndRemoveOverlap` (`src/lib/gemini.ts:111-180`). -/
def detectAndRemoveOverlap : List RChunk → List Char
  | [] => []
  | [c] => c.text
  | c :: rest => List.intercalate ['\n', '\n'] (c.text :: resolveRest c rest)

lemma wordsSplit_ne_nil (l : List Char) : wordsSplit l ≠ [] := by
  cases l with
  | nil => simp [wordsSplit]
  | cons c rest =>
    by_cases hc : c = ' '
    · simp [wordsSplit, hc]
    · cases h : wordsSplit rest with
      | nil => simp [wordsSplit, hc, h]
      | cons w ws => simp [wordsSplit, hc, h]

lemma countP_zip_comm (l1 l2 : List (List Char)) :
    (l1.zip l2).countP (fun p => p.1 == p.2) =
      (l2.zip l1).countP (fun p => p.1 == p.2) := by
  induction l1 generalizing l2 with
  | nil => cases l2 <;> simp
  | cons a t ih =>
    cases l2 with
    | nil => simp
    | cons b t2 =>
      simp only [List.zip_cons_cons, List.countP_cons, ih t2]
      congr 1
      have hbeq : (a == b) = (b == a) := by
        rw [Bool.eq_iff_iff]
        simp only [beq_iff_eq]
        exact eq_comm
      rw [hbeq]

/-- C10: the overlap-resolution similarity function is symmetric, always lies
in `[0, 1]`, and returns exactly `1` on identical strings. -/
theorem C10_similarity_symmetric_bounded :
    (∀ a b : List Char, calculateSimilarity a b = calculateSimilarity b a) ∧
    (∀ a b : List Char,
      0 ≤ calculateSimilarity a b ∧ calculateSimilarity a b ≤ 1) ∧
    (∀ a : List Char, calculateSimilarity a a = 1) := by
  refine ⟨?_, ?_, ?_⟩
  · intro a b
    by_cases hab : a = b
    · subst hab; rfl
    · have hba : ¬ (b = a) := fun h => hab h.symm
      unfold calculateSimilarity
      rw [if_neg hab, if_neg hba]
      by_cases hcon : (containsSub a b || containsSub b a) = true
      · have hcon' : (containsSub b a || containsSub a b) = true := by
          rw [Bool.or_comm] at hcon; exact hcon
        rw [if_pos hcon, if_pos hcon', min_comm, max_comm]
      · have hcon' : ¬ ((containsSub b a || containsSub a b) = true) := by
          rw [Bool.or_comm] at hcon; exact hcon
        rw [if_neg hcon, if_neg hcon', countP_zip_comm, max_comm]
  · intro a b
    by_cases hab : a = b
    · subst hab
      simp only [calculateSimilarity, if_pos rfl]
      norm_num
    · unfold calculateSimilarity
      rw [if_neg hab]
      by_cases hcon : (containsSub a b || containsSub b a) = true
      · rw [if_pos hcon]
        have hmaxpos : 0 < max a.length b.length := by
          cases a with
          | nil =>
            cases b with
            | nil => exact absurd rfl hab
            | cons x xs => simp
          | cons x xs => simp [Nat.lt_of_lt_of_le (Nat.succ_pos xs.length) (le_max_left _ _)]
        have hq : (0 : ℚ) < (max (a.length : ℚ) (b.length : ℚ)) := by
          have : ((max a.length b.length : ℕ) : ℚ) = max (a.length : ℚ) (b.length : ℚ) := by
            push_cast; rfl
          rw [← this]
          exact_mod_cast hmaxpos
        constructor
        · apply div_nonneg _ hq.le
          positivity
        · rw [div_le_one hq]
          have : min (a.length : ℚ) (b.length : ℚ) ≤ max (a.length : ℚ) (b.length : ℚ) :=
            min_le_max
          exact this
      · rw [if_neg hcon]
        have hpos1 : 0 < (wordsSplit a).length :=
          List.length_pos.mpr (wordsSplit_ne_nil a)
        have hmaxpos : 0 < max (wordsSplit a).length (wordsSplit b).length :=
          Nat.lt_of_lt_of_le hpos1 (le_max_left _ _)
        have hq : (0 : ℚ) < (max ((wordsSplit a).length : ℚ) ((wordsSplit b).length : ℚ)) := by
          have : ((max (wordsSplit a).length (wordsSplit b).length : ℕ) : ℚ)
              = max ((wordsSplit a).length : ℚ) ((wordsSplit b).length : ℚ) := by
            push_cast; rfl
          rw [← this]
          exact_mod_cast hmaxpos
        constructor
        · apply div_nonneg _ hq.le
          positivity
        · rw [div_le_one hq]
          have hle : ((wordsSplit a).zip (wordsSplit b)).countP (fun p => p.1 == p.2)
              ≤ max (wordsSplit a).length (wordsSplit b).length := by
            calc ((wordsSplit a).zip (wordsSplit b)).countP (fun p => p.1 == p.2)
                ≤ ((wordsSplit a).zip (wordsSplit b)).length := List.countP_le_length _
            _ = min (wordsSplit a).length (wordsSplit b).length := List.length_zip _ _
            _ ≤ max (wordsSplit a).length (wordsSplit b).length := min_le_max
          have : (((wordsSplit a).zip (wordsSplit b)).countP (fun p => p.1 == p.2) : ℚ)
              ≤ ((max (wordsSplit a).length (wordsSplit b).length : ℕ) : ℚ) := by
            exact_mod_cast hle
          calc (((wordsSplit a).zip (wordsSplit b)).countP (fun p => p.1 == p.2) : ℚ)
              ≤ ((max (wordsSplit a).length (wordsSplit b).length : ℕ) : ℚ) := this
          _ = max ((wordsSplit a).length : ℚ) ((wordsSplit b).length : ℚ) := by
              push_cast; rfl
  · intro a
    simp [calculateSimilarity]

lemma findIdxFrom_none_forall (p : Segment → Bool) :
    ∀ (i : ℕ) (l : List Segment), findIdxFrom p i l = none → ∀ b ∈ l, p b = false := by
  intro i l
  induction l generalizing i with
  | nil => intro _ b hb; cases hb
  | cons x xs ih =>
    intro h b hb
    unfold findIdxFrom at h
    by_cases hx : p x = true
    · simp [hx] at h
    · rcases List.mem_cons.mp hb with rfl | hb'
      · exact Bool.not_eq_true _ ▸ hx
      · rw [if_neg (by simp [hx])] at h
        exact ih (i + 1) h b hb'

lemma findOverlap_mem_match (lastSegs firstSegs : List Segment) (a b : Segment)
    (ha : a ∈ lastSegs) (hb : b ∈ firstSegs) (hm : segMatch a b = true) :
    ∃ k, findOverlap lastSegs firstSegs = some k := by
  induction lastSegs with
  | nil => cases ha
  | cons x xs ih =>
    cases hfi : findIdxFrom (fun s => segMatch x s) 0 firstSegs with
    | some k => exact ⟨k, by simp [findOverlap, hfi]⟩
    | none =>
      rcases List.mem_cons.mp ha with rfl | ha'
      · exfalso
        have hfalse := findIdxFrom_none_forall _ 0 firstSegs hfi b hb
        simp only [hm] at hfalse
        cases hfalse
      · obtain ⟨k, hk⟩ := ih ha'
        exact ⟨k, by simp [findOverlap, hfi, hk]⟩

lemma mem_drop_append_singleton (x : Segment) :
    ∀ (l : List Segment) (n : ℕ), n ≤ l.length → x ∈ (l ++ [x]).drop n := by
  intro l
  induction l with
  | nil =>
    intro n hn
    have : n = 0 := by simpa using hn
    subst this
    simp
  | cons a t ih =>
    intro n hn
    cases n with
    | zero => simp
    | succ m =>
      have hm : m ≤ t.length := by simpa using hn
      simpa using ih m hm

lemma head_mem_take (f : Segment) (Qtail : List Segment) :
    f ∈ (f :: Qtail).take (min 5 (f :: Qtail).length) := by
  have h1 : 1 ≤ min 5 (f :: Qtail).length := by
    refine le_min (by norm_num) ?_
    simp
  obtain ⟨m, hm⟩ : ∃ m, min 5 (f :: Qtail).length = m + 1 :=
    ⟨min 5 (f :: Qtail).length - 1, by omega⟩
  rw [hm, List.take_succ_cons]
  exact List.mem_cons_self _ _

lemma segMatch_of_content_eq (a b : Segment) (h : b.content = a.content)
    (hlen : 20 < (normalizeForComparison a.content).length) :
    segMatch a b = true := by
  unfold segMatch
  rw [h, if_pos ⟨hlen, hlen⟩]
  apply decide_eq_true
  rw [show calculateSimilarity (normalizeForComparison a.content)
      (normalizeForComparison a.content) = 1 by simp [calculateSimilarity]]
  norm_num

lemma intercalate_pair (sep a b : List Char) :
    List.intercalate sep [a, b] = a ++ sep ++ b := by
  simp [List.intercalate]

/-- C3 (amended): given two consecutive fragments whose extracted segments are
`Pinit ++ [lastSeg]` and `firstSeg :: Qtail`, with `firstSeg`'s content
byte-identical to `lastSeg`'s, the normalized content longer than 20
characters (the source's minimum-length guard), and that content occurring
exactly once as a segment in each fragment, the Overlap Resolver drops at
least the duplicated head segment of the second fragment and the resolved
transcript contains the duplicated content in exactly one segment. -/
theorem C3_exact_duplicate_removed
    (c0text c1text : List Char) (i0 o0 i1 o1 : ℕ)
    (Pinit : List Segment) (lastSeg firstSeg : Segment) (Qtail : List Segment)
    (hP : extractSegments c0text = Pinit ++ [lastSeg])
    (hQ : extractSegments c1text = firstSeg :: Qtail)
    (hs : firstSeg.content = lastSeg.content)
    (hlen : 20 < (normalizeForComparison lastSeg.content).length)
    (hcP : (Pinit ++ [lastSeg]).countP (fun seg => seg.content == lastSeg.content) = 1)
    (hcQ : (firstSeg :: Qtail).countP (fun seg => seg.content == lastSeg.content) = 1) :
    ∃ k, detectAndRemoveOverlap [⟨c0text, i0, o0⟩, ⟨c1text, i1, o1⟩] =
        c0text ++ '\n' :: '\n' :: renderSegs ((firstSeg :: Qtail).drop (k + 1)) ∧
      ((Pinit ++ [lastSeg]) ++ (firstSeg :: Qtail).drop (k + 1)).countP
        (fun seg => seg.content == lastSeg.content) = 1 := by
  have hmatch : segMatch lastSeg firstSeg = true := segMatch_of_content_eq _ _ hs hlen
  have hmemA : lastSeg ∈ (extractSegments c0text).drop
      ((extractSegments c0text).length - min 5 (extractSegments c0text).length) := by
    rw [hP]
    apply mem_drop_append_singleton
    have hlenP : (Pinit ++ [lastSeg]).length = Pinit.length + 1 := by simp
    have h1 : 1 ≤ min 5 (Pinit ++ [lastSeg]).length := by
      refine le_min (by norm_num) ?_
      rw [hlenP]; omega
    omega
  have hmemB : firstSeg ∈ (extractSegments c1text).take
      (min 5 (extractSegments c1text).length) := by
    rw [hQ]
    exact head_mem_take _ _
  obtain ⟨k, hk⟩ := findOverlap_mem_match _ _ _ _ hmemA hmemB hmatch
  refine ⟨k, ?_, ?_⟩
  · have hPne : (extractSegments c0text).isEmpty = false := by rw [hP]; simp
    have hQne : (extractSegments c1text).isEmpty = false := by rw [hQ]; simp
    have htrim : trimOverlap c0text c1text =
        renderSegs ((firstSeg :: Qtail).drop (k + 1)) := by
      unfold trimOverlap
      rw [show ((extractSegments c0text).isEmpty ||
            (extractSegments c1text).isEmpty) = false by rw [hPne, hQne]; rfl]
      rw [if_neg (by simp : ¬ (false = true))]
      rw [hk, hQ]
    have hstep : detectAndRemoveOverlap [⟨c0text, i0, o0⟩, ⟨c1text, i1, o1⟩] =
        List.intercalate ['\n', '\n'] [c0text, trimOverlap c0text c1text] := rfl
    rw [hstep, htrim, intercalate_pair, List.append_assoc]
    rfl
  · have hf : (firstSeg.content == lastSeg.content) = true := beq_iff_eq.mpr hs
    have hQtail : Qtail.countP (fun seg => seg.content == lastSeg.content) = 0 := by
      rw [List.countP_cons] at hcQ
      rw [hf] at hcQ
      rw [if_pos rfl] at hcQ
      omega
    have hdrop : ((firstSeg :: Qtail).drop (k + 1)).countP
        (fun seg => seg.content == lastSeg.content) = 0 := by
      rw [List.drop_succ_cons]
      have hsub := List.drop_sublist k Qtail
      have := hsub.countP_le (fun seg => seg.content == lastSeg.content)
      omega
    rw [List.countP_append, hcP, hdrop]

/-- C3 witness instance: two fragments sharing the byte-identical long segment
`alfa beta gamma delta epsilon zeta`; the resolver must keep it exactly once. -/
theorem C3_exact_duplicate_removed_witness :
    extractSegments "[00:10] alfa beta gamma delta epsilon zeta".data =
      [] ++ [⟨"00:10".data, "alfa beta gamma delta epsilon zeta".data⟩] ∧
    ∃ k, detectAndRemoveOverlap
        [⟨"[00:10] alfa beta gamma delta epsilon zeta".data, 0, 0⟩,
         ⟨("[20:10] alfa beta gamma delta epsilon zeta\n[20:40] mas cosas").data, 1, 20⟩] =
        "[00:10] alfa beta gamma delta epsilon zeta".data ++ '\n' :: '\n' ::
          renderSegs ((⟨"20:10".data, "alfa beta gamma delta epsilon zeta".data⟩ ::
            [⟨"20:40".data, "mas cosas".data⟩]).drop (k + 1)) ∧
      (([] ++ [(⟨"00:10".data, "alfa beta gamma delta epsilon zeta".data⟩ : Segment)]) ++
          ((⟨"20:10".data, "alfa beta gamma delta epsilon zeta".data⟩ ::
            [⟨"20:40".data, "mas cosas".data⟩] : List Segment)).drop (k + 1)).countP
        (fun seg : Segment =>
          seg.content == "alfa beta gamma delta epsilon zeta".data) = 1 := by
  refine ⟨by decide, ?_⟩
  exact C3_exact_duplicate_removed
    "[00:10] alfa beta gamma delta epsilon zeta".data
    ("[20:10] alfa beta gamma delta epsilon zeta\n[20:40] mas cosas").data
    0 0 1 20 []
    ⟨"00:10".data, "alfa beta gamma delta epsilon zeta".data⟩
    ⟨"20:10".data, "alfa beta gamma delta epsilon zeta".data⟩
    [⟨"20:40".data, "mas cosas".data⟩]
    (by decide) (by decide) (by decide) (by decide) (by decide) (by decide)

/-- C3 counterexample to the claim as stated: with a byte-identical boundary
segment of only 10 normalized characters (`hola mundo`, below the 20-character
guard at `gemini.ts:150`), the resolver removes nothing and the output
transcript contains that segment's text twice, not once. -/
theorem C3_exact_duplicate_removed_counterexample :
    (extractSegments "[00:10] hola mundo".data).getLast? =
      some ⟨"00:10".data, "hola mundo".data⟩ ∧
    (extractSegments ("[20:10] hola mundo\n[20:40] otra cosa").data).head? =
      some ⟨"20:10".data, "hola mundo".data⟩ ∧
    (extractSegments (detectAndRemoveOverlap
        [⟨"[00:10] hola mundo".data, 0, 0⟩,
         ⟨("[20:10] hola mundo\n[20:40] otra cosa").data, 1, 20⟩])).countP
      (fun seg => seg.content == "hola mundo".data) = 2 := by
  refine ⟨by decide, by decide, by decide⟩

/-! ### C7: the Timestamp Normalizer on arbitrary matched markers -/

/-- The shape of a marker matched by the pattern
`\[(\d{1,2}):(\d{2})(?::(\d{2}))?\]`: a 1-2 digit first group, a 2-digit
second group and an optional 2-digit third group. -/
structure MarkerShape where
  p1 : List Char
  m1 : Char
  m2 : Char
  sec : Option (Char × Char)

/-- The characters of the marker between the brackets. -/
def MarkerShape.inner (M : MarkerShape) : List Char :=
  M.p1 ++ ':' :: M.m1 :: M.m2 ::
    (match M.sec with
     | some (a, b) => [':', a, b]
     | none => [])

/-- The full marker text `[...]`. -/
def MarkerShape.render (M : MarkerShape) : List Char :=
  '[' :: (M.inner ++ [']'])

/-- Well-formedness: each group holds ASCII digits and the first group has one
or two of them. -/
@[reducible]
def MarkerShape.valid (M : MarkerShape) : Prop :=
  (M.p1.length = 1 ∨ M.p1.length = 2) ∧ (∀ c ∈ M.p1, c.isDigit) ∧
    M.m1.isDigit ∧ M.m2.isDigit ∧
    (match M.sec with
     | some (a, b) => a.isDigit ∧ b.isDigit
     | none => True)

/-- `parseInt` on a digit string. -/
def parseIntChars (l : List Char) : ℕ :=
  l.foldl (fun acc c => 10 * acc + charVal c) 0

/-- The number of seconds the marker denotes (`t` in the claim). -/
def MarkerShape.seconds (M : MarkerShape) : ℕ :=
  match M.sec with
  | some (a, b) =>
    parseIntChars M.p1 * 3600 + (10 * charVal M.m1 + charVal M.m2) * 60 +
      (10 * charVal a + charVal b)
  | none => parseIntChars M.p1 * 60 + (10 * charVal M.m1 + charVal M.m2)

/-- The capture-group data the scanner produces on a rendered marker. -/
def MarkerShape.toData (M : MarkerShape) : MarkerData :=
  ⟨parseIntChars M.p1, 10 * charVal M.m1 + charVal M.m2,
   (match M.sec with
    | some (a, b) => some (10 * charVal a + charVal b)
    | none => none), M.inner⟩

lemma MarkerShape.toData_totalSeconds (M : MarkerShape) :
    M.toData.totalSeconds = M.seconds := by
  rcases M with ⟨p1, m1, m2, sec⟩
  rcases sec with _ | ⟨a, b⟩ <;>
    simp [MarkerShape.toData, MarkerData.totalSeconds, MarkerShape.seconds]

lemma tryParseMarker_render (M : MarkerShape) (hM : M.valid) (rest : List Char) :
    tryParseMarker (M.inner ++ ']' :: rest) =
      some (M.toData, M.inner.length + 1) := by
  obtain ⟨hp1len, hp1dig, hm1, hm2, hsec⟩ := hM
  rcases M with ⟨p1, m1, m2, sec⟩
  simp only [MarkerShape.inner, MarkerShape.toData] at *
  have hcolon : (':' : Char).isDigit = false := by decide
  rcases hp1len with h1 | h2
  · obtain ⟨a, rfl⟩ : ∃ a, p1 = [a] := by
      cases p1 with
      | nil => simp at h1
      | cons a t =>
        cases t with
        | nil => exact ⟨a, rfl⟩
        | cons => simp at h1
    have ha : a.isDigit := hp1dig a (by simp)
    rcases sec with _ | ⟨e, f⟩
    · simp [tryParseMarker, parseRest, ha, hm1, hm2, hcolon, parseIntChars, charVal]
    · obtain ⟨he, hf⟩ := hsec
      simp [tryParseMarker, parseRest, ha, hm1, hm2, he, hf, hcolon,
        parseIntChars, charVal]
  · obtain ⟨a, b, rfl⟩ : ∃ a b, p1 = [a, b] := by
      cases p1 with
      | nil => simp at h2
      | cons a t =>
        cases t with
        | nil => simp at h2
        | cons b t2 =>
          cases t2 with
          | nil => exact ⟨a, b, rfl⟩
          | cons => simp at h2
    have ha : a.isDigit := hp1dig a (by simp)
    have hb : b.isDigit := hp1dig b (by simp)
    rcases sec with _ | ⟨e, f⟩
    · simp [tryParseMarker, parseRest, ha, hb, hm1, hm2, hcolon,
        parseIntChars, charVal]
    · obtain ⟨he, hf⟩ := hsec
      simp [tryParseMarker, parseRest, ha, hb, hm1, hm2, he, hf, hcolon,
        parseIntChars, charVal]

lemma adjustGo_succ_cons (m fuel : ℕ) (c : Char) (rest : List Char) :
    adjustGo m (fuel + 1) (c :: rest) =
      if c = '[' then
        match tryParseMarker rest with
        | some (M, k) =>
          formatTS (M.totalSeconds + m * 60) ++ adjustGo m fuel (rest.drop k)
        | none => c :: adjustGo m fuel rest
      else c :: adjustGo m fuel rest := rfl

lemma adjustGo_no_bracket (m : ℕ) :
    ∀ (l : List Char) (fuel : ℕ), '[' ∉ l → adjustGo m fuel l = l := by
  intro l
  induction l with
  | nil => intro fuel _; cases fuel <;> rfl
  | cons c rest ih =>
    intro fuel hl
    have hc : c ≠ '[' := fun h => hl (h ▸ List.mem_cons_self c rest)
    have hrest : '[' ∉ rest := fun h => hl (List.mem_cons_of_mem c h)
    cases fuel with
    | zero => rfl
    | succ f =>
      rw [adjustGo_succ_cons, if_neg hc, ih f hrest]

lemma adjustGo_fuel_irrel (m : ℕ) :
    ∀ (n : ℕ) (l : List Char), l.length ≤ n →
      ∀ f1 f2, l.length ≤ f1 → l.length ≤ f2 →
        adjustGo m f1 l = adjustGo m f2 l := by
  intro n
  induction n with
  | zero =>
    intro l hl f1 f2 _ _
    have : l = [] := List.length_eq_zero.mp (Nat.le_zero.mp hl)
    subst this
    cases f1 <;> cases f2 <;> rfl
  | succ n ih =>
    intro l hl f1 f2 h1 h2
    cases l with
    | nil => cases f1 <;> cases f2 <;> rfl
    | cons c rest =>
      cases f1 with
      | zero => simp at h1
      | succ g1 =>
        cases f2 with
        | zero => simp at h2
        | succ g2 =>
          have hrest : rest.length ≤ n := by simp at hl; omega
          have hg1 : rest.length ≤ g1 := by simp at h1; omega
          have hg2 : rest.length ≤ g2 := by simp at h2; omega
          rw [adjustGo_succ_cons, adjustGo_succ_cons]
          by_cases hc : c = '['
          · rw [if_pos hc, if_pos hc]
            cases hp : tryParseMarker rest with
            | none => rw [ih rest hrest g1 g2 hg1 hg2]
            | some v =>
              obtain ⟨M, k⟩ := v
              have hdrop : (rest.drop k).length ≤ rest.length := by
                simp [List.length_drop]
              show formatTS (M.totalSeconds + m * 60) ++ adjustGo m g1 (rest.drop k) =
                formatTS (M.totalSeconds + m * 60) ++ adjustGo m g2 (rest.drop k)
              rw [ih (rest.drop k) (le_trans hdrop hrest) g1 g2
                (le_trans hdrop hg1) (le_trans hdrop hg2)]
          · rw [if_neg hc, if_neg hc, ih rest hrest g1 g2 hg1 hg2]

lemma adjustGo_append_no_bracket (m : ℕ) (rest : List Char) :
    ∀ (pre : List Char) (fuel : ℕ), '[' ∉ pre →
      adjustGo m (pre.length + fuel) (pre ++ rest) =
        pre ++ adjustGo m fuel rest := by
  intro pre
  induction pre with
  | nil => intro fuel _; simp
  | cons c p ih =>
    intro fuel hpre
    have hc : c ≠ '[' := fun h => hpre (h ▸ List.mem_cons_self c p)
    have hp : '[' ∉ p := fun h => hpre (List.mem_cons_of_mem c h)
    have hlen : (c :: p).length + fuel = (p.length + fuel) + 1 := by simp; omega
    rw [hlen]
    show adjustGo m ((p.length + fuel) + 1) (c :: (p ++ rest)) = _
    rw [adjustGo_succ_cons, if_neg hc, ih fuel hp]
    rfl

/-- C7 (amended): for a positive offset `m ≥ 1` minutes, the Timestamp
Normalizer rewrites a matched marker denoting `t` seconds to the canonical
`[MM:SS]`/`[HH:MM:SS]` formatting (chosen by magnitude) of `t + 60·m` seconds,
passes the marker-free text before it through unchanged and continues on the
rest; marker-free text is never changed.  For `m = 0` the source returns the
whole text unchanged (line 21), without re-canonicalising markers. -/
theorem C7_timestamp_normalizer_rewrite (m : ℕ) (hm : m ≠ 0)
    (pre rest : List Char) (hpre : '[' ∉ pre)
    (M : MarkerShape) (hM : M.valid) :
    adjustTimestamps (pre ++ M.render ++ rest) m =
      pre ++ canonicalTimestamp (M.seconds + 60 * m) ++ adjustTimestamps rest m ∧
    (∀ text : List Char, adjustTimestamps text 0 = text) ∧
    (∀ text : List Char, '[' ∉ text → adjustTimestamps text m = text) := by
  refine ⟨?_, ?_, ?_⟩
  · unfold adjustTimestamps
    rw [if_neg hm, if_neg hm]
    rw [List.append_assoc]
    rw [show (pre ++ (M.render ++ rest)).length =
        pre.length + ((M.inner.length + 1 + rest.length) + 1) by
      simp [MarkerShape.render]; omega]
    rw [adjustGo_append_no_bracket m (M.render ++ rest) pre _ hpre,
      List.append_assoc pre]
    congr 1
    show adjustGo m ((M.inner.length + 1 + rest.length) + 1)
        ('[' :: (M.inner ++ [']'] ++ rest)) = _
    rw [adjustGo_succ_cons, if_pos rfl]
    have hinner : M.inner ++ [']'] ++ rest = M.inner ++ ']' :: rest := by simp
    rw [hinner, tryParseMarker_render M hM rest]
    show formatTS (M.toData.totalSeconds + m * 60) ++
        adjustGo m (M.inner.length + 1 + rest.length)
          ((M.inner ++ ']' :: rest).drop (M.inner.length + 1)) = _
    have hdrop : (M.inner ++ ']' :: rest).drop (M.inner.length + 1) = rest := by
      have := @List.drop_append _ M.inner (']' :: rest) 1
      simpa using this
    rw [hdrop]
    rw [M.toData_totalSeconds, formatTS_eq_canonical]
    have hfi := adjustGo_fuel_irrel m rest.length rest le_rfl
      (M.inner.length + 1 + rest.length) rest.length (by omega) le_rfl
    rw [hfi]
    rw [show M.seconds + m * 60 = M.seconds + 60 * m by ring]
  · intro text
    unfold adjustTimestamps
    rw [if_pos rfl]
  · intro text htext
    unfold adjustTimestamps
    rw [if_neg hm, adjustGo_no_bracket m text text.length htext]

/-- C7 witness instance: `x [59:59] y` with offset 2 minutes becomes
`x [01:01:59] y` (canonical formatting of 3599 + 120 seconds, switching to the
`[HH:MM:SS]` format). -/
theorem C7_timestamp_normalizer_rewrite_witness :
    adjustTimestamps ("x ".data ++
        (MarkerShape.mk ['5', '9'] '5' '9' none).render ++ " y".data) 2 =
      "x ".data ++ canonicalTimestamp
        ((MarkerShape.mk ['5', '9'] '5' '9' none).seconds + 60 * 2) ++
        adjustTimestamps " y".data 2 ∧
    adjustTimestamps ("x ".data ++
        (MarkerShape.mk ['5', '9'] '5' '9' none).render ++ " y".data) 2 =
      "x [01:01:59] y".data := by
  have h := (C7_timestamp_normalizer_rewrite 2 (by norm_num) "x ".data " y".data
    (by decide) (MarkerShape.mk ['5', '9'] '5' '9' none) (by decide)).1
  refine ⟨h, ?_⟩
  rw [h]
  decide

/-- C7 counterexample to the claim as stated: the offset `m = 0` is a
non-negative integer, and the marker `[99:59]` denotes `t = 5999` seconds
whose canonical, magnitude-chosen formatting is `[01:39:59]`; but
`adjustTimestamps` returns the text unchanged when the offset is zero
(`gemini.ts:21`), so the marker is not rewritten to canonical form. -/
theorem C7_timestamp_normalizer_rewrite_counterexample :
    adjustTimestamps "[99:59]".data 0 = "[99:59]".data ∧
    canonicalTimestamp (99 * 60 + 59 + 60 * 0) = "[01:39:59]".data ∧
    "[99:59]".data ≠ "[01:39:59]".data := by
  refine ⟨rfl, by decide, by decide⟩

/-! ### Binary chunker (`chunkFile`, `src/unnamed/part_003:507-528`)

The Groq binary chunker slices the file at byte offsets:
`while (offset < file.size) { end = min(offset + chunkSize, size);
push(slice(offset, end)); offset = end }`, with a shortcut returning the whole
file when it already fits in one chunk.  A byte payload is a `List α`; a chunk
records the slice bounds and the sliced bytes.  `fuel` (the file length) only
realises termination: with `chunkSize = 0` and a non-empty file the source
loop never terminates, which the model reports as `none`. -/

structure BinChunk (α : Type) where
  start : ℕ
  stop : ℕ
  payload : List α
deriving DecidableEq

def chunkFileGo (file : List α) (chunkSize : ℕ) : ℕ → ℕ → Option (List (BinChunk α))
  | 0, offset => if offset < file.length then none else some []
  | fuel + 1, offset =>
    if offset < file.length then
      match chunkFileGo file chunkSize fuel (min (offset + chunkSize) file.length) with
      | some rest =>
        some (⟨offset, min (offset + chunkSize) file.length,
          (file.drop offset).take (min (offset + chunkSize) file.length - offset)⟩ :: rest)
      | none => none
    else some []

def chunkFile (file : List α) (chunkSize : ℕ) : Option (List (BinChunk α)) :=
  if file.length ≤ chunkSize then some [⟨0, file.length, file⟩]
  else chunkFileGo file chunkSize file.length 0

/-- The chunk the loop produces `j` iterations after reaching `offset`. -/
def mkBinChunkFrom (file : List α) (cs offset : ℕ) (j : ℕ) : BinChunk α :=
  ⟨offset + j * cs, min (offset + (j + 1) * cs) file.length,
   (file.drop (offset + j * cs)).take
     (min (offset + (j + 1) * cs) file.length - (offset + j * cs))⟩

lemma mkBinChunkFrom_succ (file : List α) (cs offset j : ℕ) :
    mkBinChunkFrom file cs offset (j + 1) = mkBinChunkFrom file cs (offset + cs) j := by
  unfold mkBinChunkFrom
  have h1 : offset + (j + 1) * cs = offset + cs + j * cs := by ring
  have h2 : offset + (j + 1 + 1) * cs = offset + cs + (j + 1) * cs := by ring
  rw [h1, h2]

lemma chunkFileGo_eq (file : List α) (cs : ℕ) (hc : 0 < cs) :
    ∀ (fuel offset : ℕ), file.length - offset ≤ fuel →
      chunkFileGo file cs fuel offset =
        some ((List.range ((file.length - offset + cs - 1) / cs)).map
          (mkBinChunkFrom file cs offset)) := by
  intro fuel
  induction fuel with
  | zero =>
    intro offset h
    have hoff : file.length ≤ offset := by omega
    have hcnt : (file.length - offset + cs - 1) / cs = 0 := by
      have : file.length - offset = 0 := by omega
      rw [this]
      exact Nat.div_eq_of_lt (by omega)
    unfold chunkFileGo
    rw [if_neg (by omega), hcnt]
    rfl
  | succ fuel ih =>
    intro offset h
    by_cases hoff : offset < file.length
    · unfold chunkFileGo
      rw [if_pos hoff, ih (min (offset + cs) file.length) (by omega)]
      dsimp only
      by_cases hfit : offset + cs ≤ file.length
      · have he : min (offset + cs) file.length = offset + cs := min_eq_left hfit
        rw [he]
        have hcnt : (file.length - offset + cs - 1) / cs
            = (file.length - (offset + cs) + cs - 1) / cs + 1 := by
          have hd : file.length - offset + cs - 1
              = (file.length - (offset + cs) + cs - 1) + cs := by omega
          rw [hd, Nat.add_div_right _ hc]
        rw [hcnt, List.range_succ_eq_map, List.map_cons, List.map_map]
        have hhead : (⟨offset, offset + cs,
            (file.drop offset).take (offset + cs - offset)⟩ : BinChunk α)
            = mkBinChunkFrom file cs offset 0 := by
          unfold mkBinChunkFrom
          norm_num [he]
        have htail : List.map (mkBinChunkFrom file cs (offset + cs))
              (List.range ((file.length - (offset + cs) + cs - 1) / cs))
            = List.map (mkBinChunkFrom file cs offset ∘ Nat.succ)
              (List.range ((file.length - (offset + cs) + cs - 1) / cs)) := by
          apply List.map_congr_left
          intro j _
          show mkBinChunkFrom file cs (offset + cs) j
              = mkBinChunkFrom file cs offset (j + 1)
          exact (mkBinChunkFrom_succ file cs offset j).symm
        rw [hhead, htail]
      · have he : min (offset + cs) file.length = file.length :=
          min_eq_right (by omega)
        rw [he]
        have hz : (file.length - file.length + cs - 1) / cs = 0 := by
          rw [Nat.sub_self]
          exact Nat.div_eq_of_lt (by omega)
        have ho : (file.length - offset + cs - 1) / cs = 1 :=
          Nat.div_eq_of_lt_le (by omega) (by omega)
        rw [hz, ho]
        have hhead : (⟨offset, file.length,
            (file.drop offset).take (file.length - offset)⟩ : BinChunk α)
            = mkBinChunkFrom file cs offset 0 := by
          unfold mkBinChunkFrom
          norm_num [he]
        rw [hhead]
        rfl
    · have hcnt : (file.length - offset + cs - 1) / cs = 0 := by
        have : file.length - offset = 0 := by omega
        rw [this]
        exact Nat.div_eq_of_lt (by omega)
      unfold chunkFileGo
      rw [if_neg hoff, hcnt]
      rfl

lemma chunkFileGo_flatten (file : List α) (cs : ℕ) :
    ∀ (fuel offset : ℕ) (l : List (BinChunk α)),
      chunkFileGo file cs fuel offset = some l →
      (l.map (fun c => c.payload)).flatten = file.drop offset := by
  intro fuel
  induction fuel with
  | zero =>
    intro offset l h
    unfold chunkFileGo at h
    by_cases hoff : offset < file.length
    · rw [if_pos hoff] at h; cases h
    · rw [if_neg hoff] at h
      cases h
      have hle : file.length ≤ offset := by omega
      simp [List.drop_eq_nil_of_le hle]
  | succ fuel ih =>
    intro offset l h
    unfold chunkFileGo at h
    by_cases hoff : offset < file.length
    · rw [if_pos hoff] at h
      cases hrec : chunkFileGo file cs fuel (min (offset + cs) file.length) with
      | none => rw [hrec] at h; cases h
      | some rest =>
        rw [hrec] at h
        cases h
        have htail := ih (min (offset + cs) file.length) rest hrec
        simp only [List.map_cons, List.flatten_cons, htail]
        have hdd : List.drop (min (offset + cs) file.length) file
            = List.drop (min (offset + cs) file.length - offset)
                (List.drop offset file) := by
          rw [List.drop_drop]
          congr 1
          omega
        rw [hdd]
        exact List.take_append_drop _ _
    · rw [if_neg hoff] at h
      cases h
      have hle : file.length ≤ offset := by omega
      simp [List.drop_eq_nil_of_le hle]

lemma ceil_div_mul_ge (L cs : ℕ) (hc : 0 < cs) : L ≤ ((L + cs - 1) / cs) * cs := by
  have hmod := Nat.div_add_mod (L + cs - 1) cs
  have hlt : (L + cs - 1) % cs < cs := Nat.mod_lt _ hc
  rw [Nat.mul_comm]
  set x := cs * ((L + cs - 1) / cs) with hx
  omega

lemma interior_mul_lt (L cs k q : ℕ) (hc : 0 < cs) (hq : q = (L + cs - 1) / cs)
    (hk : k + 1 < q) : (k + 1) * cs < L := by
  have h1 : k + 2 ≤ (L + cs - 1) / cs := by omega
  have h2 : (k + 2) * cs ≤ L + cs - 1 := (Nat.le_div_iff_mul_le hc).mp h1
  have h3 : (k + 2) * cs = (k + 1) * cs + cs := by ring
  set y := (k + 1) * cs with hy
  omega

/-- C6: for every file and every positive maximum chunk byte size, the Groq
binary chunker returns byte-range chunks in index order (strictly increasing,
non-overlapping ranges) each of which spans at most `chunkSize` bytes, the
payload being exactly the slice of the file at that range.  (With
`chunkSize = 0` and a non-empty file the source loop would not terminate, so
positivity is assumed.) -/
theorem C6_binary_chunker_ranges (α : Type) (file : List α) (cs : ℕ) (hc : 0 < cs) :
    ∃ l, chunkFile file cs = some l ∧
      (∀ k (hk : k + 1 < l.length),
        (l.get ⟨k, Nat.lt_of_succ_lt hk⟩).stop ≤ (l.get ⟨k + 1, hk⟩).start ∧
        (l.get ⟨k, Nat.lt_of_succ_lt hk⟩).start < (l.get ⟨k + 1, hk⟩).start) ∧
      (∀ k (hk : k < l.length),
        (l.get ⟨k, hk⟩).payload.length ≤ cs ∧
        (l.get ⟨k, hk⟩).stop - (l.get ⟨k, hk⟩).start ≤ cs ∧
        (l.get ⟨k, hk⟩).payload =
          (file.drop (l.get ⟨k, hk⟩).start).take
            ((l.get ⟨k, hk⟩).stop - (l.get ⟨k, hk⟩).start)) := by
  by_cases hsmall : file.length ≤ cs
  · refine ⟨[⟨0, file.length, file⟩], by simp [chunkFile, hsmall], ?_, ?_⟩
    · intro k hk
      simp at hk
    · intro k hk
      simp at hk
      subst hk
      refine ⟨hsmall, ?_, by simp⟩
      show file.length - 0 ≤ cs
      omega
  · have hL : cs < file.length := by omega
    refine ⟨(List.range ((file.length - 0 + cs - 1) / cs)).map
      (mkBinChunkFrom file cs 0), ?_, ?_, ?_⟩
    · unfold chunkFile
      rw [if_neg hsmall]
      exact chunkFileGo_eq file cs hc file.length 0 (by omega)
    · intro k hk
      simp only [List.length_map, List.length_range] at hk
      rw [List.get_eq_getElem, List.get_eq_getElem, List.getElem_map,
        List.getElem_map, List.getElem_range, List.getElem_range]
      unfold mkBinChunkFrom
      simp only [Nat.zero_add]
      constructor
      · exact le_trans (min_le_left _ _) (le_of_eq (by ring))
      · have : k * cs < (k + 1) * cs := by
          have : k * cs + cs = (k + 1) * cs := by ring
          omega
        omega
    · intro k hk
      simp only [List.length_map, List.length_range] at hk
      rw [List.get_eq_getElem, List.getElem_map, List.getElem_range]
      unfold mkBinChunkFrom
      simp only [Nat.zero_add]
      have hlen : ((file.drop (k * cs)).take
          (min ((k + 1) * cs) file.length - k * cs)).length ≤ cs := by
        rw [List.length_take]
        have : (k + 1) * cs = k * cs + cs := by ring
        omega
      refine ⟨hlen, ?_, ?_⟩
      · have h2 : (k + 1) * cs = k * cs + cs := by ring
        omega
      · trivial

/-- C6 witness instance: a five-byte file cut in chunks of at most two bytes. -/
theorem C6_binary_chunker_ranges_witness :
    (0 < 2 ∧ chunkFile [10, 20, 30, 40, 50] 2 =
      some [⟨0, 2, [10, 20]⟩, ⟨2, 4, [30, 40]⟩, ⟨4, 5, [50]⟩]) ∧
    (∃ l, chunkFile ([10, 20, 30, 40, 50] : List ℕ) 2 = some l ∧
      (∀ k (hk : k + 1 < l.length),
        (l.get ⟨k, Nat.lt_of_succ_lt hk⟩).stop ≤ (l.get ⟨k + 1, hk⟩).start ∧
        (l.get ⟨k, Nat.lt_of_succ_lt hk⟩).start < (l.get ⟨k + 1, hk⟩).start) ∧
      (∀ k (hk : k < l.length),
        (l.get ⟨k, hk⟩).payload.length ≤ 2 ∧
        (l.get ⟨k, hk⟩).stop - (l.get ⟨k, hk⟩).start ≤ 2 ∧
        (l.get ⟨k, hk⟩).payload =
          (([10, 20, 30, 40, 50] : List ℕ).drop (l.get ⟨k, hk⟩).start).take
            ((l.get ⟨k, hk⟩).stop - (l.get ⟨k, hk⟩).start))) := by
  refine ⟨⟨by norm_num, by decide⟩, ?_⟩
  exact C6_binary_chunker_ranges ℕ [10, 20, 30, 40, 50] 2 (by norm_num)

/-- C9: for a positive chunk size smaller than the file, the binary chunks are
contiguous: the first starts at byte 0, each chunk stops where the next
starts, the last stops at the file length, every chunk but the last has
exactly `chunkSize` bytes, and concatenating the payloads in index order
reconstructs the file byte-for-byte. -/
theorem C9_binary_chunker_reconstruct (α : Type) (file : List α) (cs : ℕ)
    (hc : 0 < cs) (hlarge : cs < file.length) :
    ∃ l, chunkFile file cs = some l ∧
      l.length = (file.length + cs - 1) / cs ∧
      0 < l.length ∧
      (∀ hne : 0 < l.length, (l.get ⟨0, hne⟩).start = 0) ∧
      (∀ k (hk : k + 1 < l.length),
        (l.get ⟨k, Nat.lt_of_succ_lt hk⟩).stop = (l.get ⟨k + 1, hk⟩).start) ∧
      (∀ k, k + 1 = l.length → ∀ hk : k < l.length,
        (l.get ⟨k, hk⟩).stop = file.length) ∧
      (∀ k (hk : k + 1 < l.length),
        (l.get ⟨k, Nat.lt_of_succ_lt hk⟩).payload.length = cs) ∧
      (l.map (fun c => c.payload)).flatten = file := by
  have hsmall : ¬ (file.length ≤ cs) := by omega
  have hgo := chunkFileGo_eq file cs hc file.length 0 (by omega)
  have hq : file.length - 0 + cs - 1 = file.length + cs - 1 := by omega
  rw [hq] at hgo
  set q := (file.length + cs - 1) / cs with hqdef
  have hchunk : chunkFile file cs =
      some ((List.range q).map (mkBinChunkFrom file cs 0)) := by
    unfold chunkFile
    rw [if_neg hsmall]
    exact hgo
  have hqpos : 0 < q := by
    rw [hqdef]
    have h1 : 1 ≤ (file.length + cs - 1) / cs := by
      rw [Nat.le_div_iff_mul_le hc]
      omega
    omega
  refine ⟨(List.range q).map (mkBinChunkFrom file cs 0), hchunk, by simp, by simp [hqpos],
    ?_, ?_, ?_, ?_, ?_⟩
  · intro hne
    rw [List.get_eq_getElem, List.getElem_map, List.getElem_range]
    unfold mkBinChunkFrom
    simp
  · intro k hk
    simp only [List.length_map, List.length_range] at hk
    rw [List.get_eq_getElem, List.get_eq_getElem, List.getElem_map,
      List.getElem_map, List.getElem_range, List.getElem_range]
    unfold mkBinChunkFrom
    simp only [Nat.zero_add]
    exact min_eq_left (le_of_lt (interior_mul_lt file.length cs k q hc hqdef hk))
  · intro k hklast hk
    simp only [List.length_map, List.length_range] at hk hklast
    rw [List.get_eq_getElem, List.getElem_map, List.getElem_range]
    unfold mkBinChunkFrom
    simp only [Nat.zero_add]
    have hge : file.length ≤ (k + 1) * cs := by
      rw [hklast, hqdef]
      exact ceil_div_mul_ge file.length cs hc
    exact min_eq_right hge
  · intro k hk
    simp only [List.length_map, List.length_range] at hk
    rw [List.get_eq_getElem, List.getElem_map, List.getElem_range]
    unfold mkBinChunkFrom
    simp only [Nat.zero_add]
    have hint := interior_mul_lt file.length cs k q hc hqdef hk
    rw [List.length_take, List.length_drop]
    have : (k + 1) * cs = k * cs + cs := by ring
    omega
  · exact chunkFileGo_flatten file cs file.length 0 _ hgo

/-- C9 witness instance: the five-byte file in two-byte chunks reassembles to
the original. -/
theorem C9_binary_chunker_reconstruct_witness :
    (0 < 2 ∧ 2 < ([10, 20, 30, 40, 50] : List ℕ).length) ∧
    ∃ l, chunkFile ([10, 20, 30, 40, 50] : List ℕ) 2 = some l ∧
      l.length = (([10, 20, 30, 40, 50] : List ℕ).length + 2 - 1) / 2 ∧
      0 < l.length ∧
      (∀ hne : 0 < l.length, (l.get ⟨0, hne⟩).start = 0) ∧
      (∀ k (hk : k + 1 < l.length),
        (l.get ⟨k, Nat.lt_of_succ_lt hk⟩).stop = (l.get ⟨k + 1, hk⟩).start) ∧
      (∀ k, k + 1 = l.length → ∀ hk : k < l.length,
        (l.get ⟨k, hk⟩).stop = ([10, 20, 30, 40, 50] : List ℕ).length) ∧
      (∀ k (hk : k + 1 < l.length),
        (l.get ⟨k, Nat.lt_of_succ_lt hk⟩).payload.length = 2) ∧
      (l.map (fun c => c.payload)).flatten = [10, 20, 30, 40, 50] := by
  refine ⟨⟨by norm_num, by norm_num⟩, ?_⟩
  exact C9_binary_chunker_reconstruct ℕ [10, 20, 30, 40, 50] 2 (by norm_num) (by norm_num)

/-! ### Transcription dispatcher (`src/src/lib/pdf-generator.ts:668-773`)

The remote endpoint is modelled by the responses it returns: each `fetch`
consumes one `GroqResponse`.  `transcribeSingleFile` contains exactly one
`fetch` and no retry loop; on `!response.ok` it throws a status-specific
error (401 / 413 / 429 / generic).  `transcribeAudio` transcribes the chunks
sequentially and lets any thrown error abort the whole dispatch.  (The
AbortController timeout path and the api-key guard are external I/O and are
not modelled.) -/

structure GroqSegment where
  start : ℚ
  text : List Char
deriving DecidableEq

structure GroqResponse where
  ok : Bool
  status : ℕ
  segments : List GroqSegment
  text : List Char
deriving DecidableEq

/-- One line of the verbose-json formatting
(`[MM:SS] text`, `pdf-generator.ts:725-733`). -/
def formatGroqSegment (seg : GroqSegment) : List Char :=
  '[' :: (pad2 (Int.toNat ⌊seg.start / 60⌋) ++ ':' ::
    pad2 (Int.toNat ⌊seg.start - 60 * ⌊seg.start / 60⌋⌋) ++ ']' :: ' ' ::
    trimChars seg.text)

/-- `transcribeSingleFile` applied to the endpoint's response. -/
def transcribeSingleFile (r : GroqResponse) : Except (List Char) (List Char) :=
  if r.ok then
    if r.segments ≠ [] then
      .ok (List.intercalate ['\n'] (r.segments.map formatGroqSegment))
    else .ok r.text
  else if r.status = 401 then
    .error "API Key invalida. Verifica tu key de Groq.".data
  else if r.status = 413 then
    .error "Archivo demasiado grande para Groq (limite 25MB).".data
  else if r.status = 429 then
    .error "Limite de Groq alcanzado. Espera un momento.".data
  else
    .error "Error del servidor".data

/-- One dispatch makes exactly one request: it consumes exactly the head of
the pending response stream (there is a single `fetch` in
`transcribeSingleFile` and no retry). -/
def transcribeSingleFileSeq (responses : List GroqResponse) :
    Option (Except (List Char) (List Char) × List GroqResponse) :=
  match responses with
  | [] => none
  | r :: rest => some (transcribeSingleFile r, rest)

/-- The sequential loop of `transcribeAudio` (lines 761-769); a thrown error
aborts the whole dispatch. -/
def transcribeAudioGo : List GroqResponse → Except (List Char) (List (List Char))
  | [] => .ok []
  | r :: rest =>
    match transcribeSingleFile r with
    | .ok t =>
      match transcribeAudioGo rest with
      | .ok ts => .ok (t :: ts)
      | .error e => .error e
    | .error e => .error e

/-- `transcribeAudio` (`pdf-generator.ts:748-773`): the `i`-th chunk's
endpoint response is the `i`-th list entry; results are joined with blank
lines. -/
def transcribeAudio (chunkResponses : List GroqResponse) :
    Except (List Char) (List Char) :=
  if chunkResponses = [] then .error "No hay archivos para transcribir".data
  else
    match transcribeAudioGo chunkResponses with
    | .ok ts => .ok (List.intercalate ['\n', '\n'] ts)
    | .error e => .error e

lemma transcribeSingleFile_error (r : GroqResponse) (h : r.ok = false) :
    ∃ e, transcribeSingleFile r = .error e := by
  unfold transcribeSingleFile
  rw [h]
  simp only [Bool.false_eq_true, if_false]
  by_cases h1 : r.status = 401
  · exact ⟨_, by rw [if_pos h1]⟩
  · rw [if_neg h1]
    by_cases h2 : r.status = 413
    · exact ⟨_, by rw [if_pos h2]⟩
    · rw [if_neg h2]
      by_cases h3 : r.status = 429
      · exact ⟨_, by rw [if_pos h3]⟩
      · exact ⟨_, by rw [if_neg h3]⟩

lemma transcribeAudioGo_error (rs : List GroqResponse) (r : GroqResponse)
    (hmem : r ∈ rs) (hrok : r.ok = false) :
    ∃ e, transcribeAudioGo rs = .error e := by
  induction rs with
  | nil => cases hmem
  | cons x xs ih =>
    rcases List.mem_cons.mp hmem with rfl | hmem'
    · obtain ⟨e, he⟩ := transcribeSingleFile_error r hrok
      exact ⟨e, by unfold transcribeAudioGo; rw [he]⟩
    · cases hx : transcribeSingleFile x with
      | error e => exact ⟨e, by unfold transcribeAudioGo; rw [hx]⟩
      | ok t =>
        obtain ⟨e, he⟩ := ih hmem'
        exact ⟨e, by unfold transcribeAudioGo; rw [hx, he]⟩

/-- C2 (amended): on a rate-limit response (HTTP 429) the Groq transcription
dispatcher does NOT retry: it fails immediately with the rate-limit error,
consuming exactly one response from the endpoint; and whenever any chunk's
response is non-success the whole dispatch fails with an error (no partial
transcript is returned). -/
theorem C2_rate_limit_fails_immediately
    (r : GroqResponse) (rest : List GroqResponse)
    (hok : r.ok = false) (hst : r.status = 429) :
    transcribeSingleFileSeq (r :: rest) =
      some (.error "Limite de Groq alcanzado. Espera un momento.".data, rest) ∧
    (∀ (rs : List GroqResponse) (bad : GroqResponse), bad ∈ rs → bad.ok = false →
      ∃ e, transcribeAudio rs = .error e) := by
  constructor
  · unfold transcribeSingleFileSeq transcribeSingleFile
    dsimp only
    rw [hok, hst]
    norm_num
  · intro rs bad hmem hbad
    obtain ⟨e, he⟩ := transcribeAudioGo_error rs bad hmem hbad
    have hne : rs ≠ [] := by
      intro hnil
      subst hnil
      cases hmem
    refine ⟨e, ?_⟩
    unfold transcribeAudio
    rw [if_neg hne, he]

/-- C2 witness instance: a 429 response followed by an available successful
response; the dispatcher still fails with the rate-limit error and consumes
only the first response. -/
theorem C2_rate_limit_fails_immediately_witness :
    transcribeSingleFileSeq
        [⟨false, 429, [], "x".data⟩, ⟨true, 200, [], "hola".data⟩] =
      some (.error "Limite de Groq alcanzado. Espera un momento.".data,
        [⟨true, 200, [], "hola".data⟩]) ∧
    (∃ e, transcribeAudio [⟨false, 429, [], "x".data⟩] = .error e) := by
  have h := C2_rate_limit_fails_immediately ⟨false, 429, [], "x".data⟩
    [⟨true, 200, [], "hola".data⟩] rfl rfl
  exact ⟨h.1, h.2 [⟨false, 429, [], "x".data⟩] ⟨false, 429, [], "x".data⟩
    (List.mem_singleton.mpr rfl) rfl⟩

/-- C2 counterexample to the claim as stated: the endpoint rate-limits the
first request and would answer the retry successfully with `hola`; a
retry-once dispatcher would return `hola`, but `transcribeSingleFile` throws
the rate-limit error at once (`pdf-generator.ts:716-718` — there is no retry
path), leaving the successful response unconsumed. -/
theorem C2_rate_limit_fails_immediately_counterexample :
    transcribeSingleFileSeq
        [⟨false, 429, [], "x".data⟩, ⟨true, 200, [], "hola".data⟩] =
      some (.error "Limite de Groq alcanzado. Espera un momento.".data,
        [⟨true, 200, [], "hola".data⟩]) ∧
    transcribeSingleFile ⟨true, 200, [], "hola".data⟩ = .ok "hola".data := by
  constructor
  · unfold transcribeSingleFileSeq transcribeSingleFile
    norm_num
  · rfl

/-! ### Strategy selection (`processForGemini` / `processForGroq`,
`src/unnamed/part_003:133-372`, and `needsTemporalChunking`,
`src/src/lib/ffmpeg-chunker.ts:294-319`)

The branch structures of `processForGemini` and `processForGroq` are
reified as decision functions returning the chosen plan: `direct` pass,
temporal chunking with its parameters, or compression with the provider's
`(sampleRate, bitrateKbps)` profile (the compression engine downmixes to mono
in `getMono`).  `isVideo` is `file.type.startsWith('video/')`. -/

inductive Plan where
  | direct
  | temporalChunk (chunkMinutes overlapSeconds : ℚ)
  | compress (sampleRate bitrateKbps : ℕ)
deriving DecidableEq

/-- `String.prototype.startsWith`. -/
def startsWithChars (pre s : List Char) : Bool := s.take pre.length == pre

/-- File extension per the regex `/\.([^.]+)$/` (non-empty run of non-dot
characters after the last dot). -/
def fileExtension (name : List Char) : Option (List Char) :=
  if (name.reverse.takeWhile (fun c => !(c == '.'))).length < name.length ∧
      name.reverse.takeWhile (fun c => !(c == '.')) ≠ [] then
    some (name.reverse.takeWhile (fun c => !(c == '.'))).reverse
  else none

def containerFormats : List (List Char) :=
  ["m4a", "mp4", "mov", "webm", "mkv", "ogg", "opus", "flac"].map String.data

def containerMimes : List (List Char) :=
  ["audio/mp4", "audio/x-m4a", "audio/m4a", "video/mp4", "video/quicktime",
   "audio/webm", "video/webm", "audio/ogg", "audio/opus", "audio/flac",
   "audio/x-flac"].map String.data

/-- `needsTemporalChunking` (`ffmpeg-chunker.ts:294-319`). -/
def needsTemporalChunking (fileName mimeType : List Char) : Bool :=
  (match fileExtension fileName with
   | some ext => containerFormats.any (fun f => f == ext.map Char.toLower)
   | none => false) ||
  containerMimes.any (fun mi => mi == mimeType)

/-- JavaScript division of a duration by 60 (minutes). -/
def JSNum.div60 : JSNum → JSNum
  | .num q => .num (q / 60)
  | .nan => .nan
  | .posInf => .posInf
  | .negInf => .negInf

/-- JavaScript `x < c` for a finite bound. -/
def JSNum.ltNum : JSNum → ℚ → Bool
  | .num q, c => decide (q < c)
  | .nan, _ => false
  | .posInf, _ => false
  | .negInf, _ => true

/-- The decision structure of `processForGemini` (`part_003:133-258`):
small (<20MB) or short (<20 min) audio passes through; long container-format
audio is temporally chunked at 20 minutes with 30 s overlap when FFmpeg is
available (falling back to the 44.1 kHz/128 kbps MP3 conversion otherwise);
long MP3/WAV audio passes through (binary-chunked later); video is always
compressed at the Gemini HQ profile. -/
def geminiPlan (fileName fileType : List Char) (size : ℕ) (duration : JSNum)
    (ffmpegSupported : Bool) : Plan :=
  if !(startsWithChars "video/".data fileType) then
    if size < 20 * 1024 * 1024 ||
        ((JSNum.div60 duration).isFinite && (JSNum.div60 duration).ltNum 20) then
      .direct
    else if needsTemporalChunking fileName fileType then
      if ffmpegSupported then .temporalChunk 20 30
      else .compress 44100 128
    else .direct
  else .compress 44100 128

/-- The decision structure of `processForGroq` (`part_003:297-372`): files
needing no compression (≤25 MB audio, not forced) pass through; otherwise the
audio is extracted/compressed at 16 kHz / 64 kbps (and possibly
binary-chunked afterwards depending on the compressed size). -/
def groqPlan (fileType : List Char) (size : ℕ) (forceCompression : Bool) : Plan :=
  if size > 25 * 1024 * 1024 || startsWithChars "video/".data fileType ||
      forceCompression then
    .compress 16000 64
  else .direct

/-- C8: every video input, for either provider, is routed through the
Compression Engine at the provider's profile (44.1 kHz / 128 kbps for Gemini,
16 kHz / 64 kbps for Groq) regardless of size, duration, FFmpeg support or
the force flag; a video file is never passed through directly. -/
theorem C8_video_always_extracted
    (fileName fileType : List Char) (size : ℕ) (duration : JSNum)
    (ffmpegSupported forceCompression : Bool)
    (hvideo : startsWithChars "video/".data fileType = true) :
    geminiPlan fileName fileType size duration ffmpegSupported =
      .compress 44100 128 ∧
    groqPlan fileType size forceCompression = .compress 16000 64 ∧
    geminiPlan fileName fileType size duration ffmpegSupported ≠ Plan.direct ∧
    groqPlan fileType size forceCompression ≠ Plan.direct := by
  have h1 : geminiPlan fileName fileType size duration ffmpegSupported =
      .compress 44100 128 := by
    unfold geminiPlan
    rw [hvideo]
    rfl
  have h2 : groqPlan fileType size forceCompression = .compress 16000 64 := by
    unfold groqPlan
    rw [hvideo]
    simp
  refine ⟨h1, h2, ?_, ?_⟩
  · rw [h1]; intro h; cases h
  · rw [h2]; intro h; cases h

/-- C8 witness instance: a `video/mp4` upload. -/
theorem C8_video_always_extracted_witness :
    startsWithChars "video/".data "video/mp4".data = true ∧
    geminiPlan "clase.mov".data "video/mp4".data 1000 (.num 2400) true =
      .compress 44100 128 ∧
    groqPlan "video/mp4".data 1000 false = .compress 16000 64 := by
  have h := C8_video_always_extracted "clase.mov".data "video/mp4".data 1000
    (.num 2400) true false (by decide)
  exact ⟨by decide, h.1, h.2.1⟩

lemma chunks_5400 (fileBytes : List ℕ) (exec : ℚ → ℚ → ℕ × List ℕ)
    (hexec : ∀ s d, (exec s d).1 = 0) :
    (chunkFileTemporally fileBytes exec (.num 5400) 20 30).map
        (fun r => r.chunks.map (fun c => (c.startTime, c.endTime, c.index))) =
      .ok [((0 : ℚ), (1230 : ℚ), 0), (1200, 2430, 1), (2400, 3630, 2),
        (3600, 4830, 3), (4800, 5400, 4)] := by
  rw [chunkFileTemporally_finite fileBytes exec 5400 20 30 hexec
    (by norm_num) (by norm_num)]
  have hceil : ⌈(5400 : ℚ) / (20 * 60)⌉₊ = 5 := by
    rw [show (5400 : ℚ) / (20 * 60) = 9 / 2 by norm_num]
    rw [Nat.ceil_eq_iff (by norm_num)]
    norm_num
  rw [hceil]
  rw [show ((20 : ℚ) * 60) = 1200 by norm_num]
  simp only [show min 5 100 = 5 from rfl, List.range_succ, List.range_zero,
    List.nil_append, List.singleton_append, List.map_cons, List.map_nil,
    Except.map]
  norm_num [mkTChunk, min_def]

/-- C5 (amended): a 90-minute (5400 s) M4A upload of at least 20 MB with
provider gemini and FFmpeg available is planned as temporal chunking with
`chunkMinutes = 20` and `overlap = 30 s`, and the chunker then produces
exactly 5 chunks with windows `[0,1230]`, `[1200,2430]`, `[2400,3630]`,
`[3600,4830]`, `[4800,5400]` seconds — i.e. `[0,20.5]`, `[20,40.5]`,
`[40,60.5]`, `[60,80.5]`, `[80,90]` minutes — whose start times (and hence
the per-chunk timestamp offsets `floor(start/60) = 0,20,40,60,80`) are
strictly increasing. -/
theorem C5_ninety_minute_m4a_plan
    (fileName fileType : List Char) (size : ℕ)
    (hext : fileExtension fileName = some "m4a".data)
    (hnotvideo : startsWithChars "video/".data fileType = false)
    (hsize : 20 * 1024 * 1024 ≤ size)
    (fileBytes : List ℕ) (exec : ℚ → ℚ → ℕ × List ℕ)
    (hexec : ∀ s d, (exec s d).1 = 0) :
    geminiPlan fileName fileType size (.num 5400) true = .temporalChunk 20 30 ∧
    (chunkFileTemporally fileBytes exec (.num 5400) 20 30).map
        (fun r => r.chunks.map (fun c => (c.startTime, c.endTime, c.index))) =
      .ok [((0 : ℚ), (1230 : ℚ), 0), (1200, 2430, 1), (2400, 3630, 2),
        (3600, 4830, 3), (4800, 5400, 4)] ∧
    List.Chain' (fun a b => a < b) ([0, 1200, 2400, 3600, 4800] : List ℚ) := by
  refine ⟨?_, chunks_5400 fileBytes exec hexec, ?_⟩
  · unfold geminiPlan
    rw [hnotvideo]
    have hsmall : ¬ (size < 20 * 1024 * 1024) := by omega
    have hshort : ((JSNum.div60 (.num 5400)).isFinite &&
        (JSNum.div60 (.num 5400)).ltNum 20) = false := by
      simp only [JSNum.div60, JSNum.isFinite, JSNum.ltNum, Bool.true_and]
      rw [decide_eq_false]
      norm_num
    have hcond : (size < 20 * 1024 * 1024 ||
        ((JSNum.div60 (.num 5400)).isFinite &&
          (JSNum.div60 (.num 5400)).ltNum 20)) = false := by
      rw [hshort]
      simp [hsmall]
    have hntc : needsTemporalChunking fileName fileType = true := by
      unfold needsTemporalChunking
      rw [hext]
      simp [containerFormats]
    rw [hcond, hntc]
    rfl
  · norm_num [List.chain'_cons]

/-- C5 witness instance: file `clase.m4a` of type `audio/mp4`, 30 MB. -/
theorem C5_ninety_minute_m4a_plan_witness :
    fileExtension "clase.m4a".data = some "m4a".data ∧
    geminiPlan "clase.m4a".data "audio/mp4".data 31457280 (.num 5400) true =
      .temporalChunk 20 30 ∧
    (chunkFileTemporally [] (fun _ _ => (0, [])) (.num 5400) 20 30).map
        (fun r => r.chunks.map (fun c => (c.startTime, c.endTime, c.index))) =
      .ok [((0 : ℚ), (1230 : ℚ), 0), (1200, 2430, 1), (2400, 3630, 2),
        (3600, 4830, 3), (4800, 5400, 4)] := by
  have h := C5_ninety_minute_m4a_plan "clase.m4a".data "audio/mp4".data 31457280
    (by decide) (by decide) (by norm_num) [] (fun _ _ => (0, [])) (fun _ _ => rfl)
  exact ⟨by decide, h.1, h.2.1⟩

/-- C5 counterexample to the claim as stated: the claim (like the spec
scenario) expects the second window to be `[19.5, 40.5]` minutes, i.e. to
start at `1170` seconds; the source starts chunk `k` at `k * chunkDuration`
with the overlap appended at the END of the window
(`ffmpeg-chunker.ts:196-197`), so the second window is `[1200, 2430]`
seconds = `[20, 40.5]` minutes. -/
theorem C5_ninety_minute_m4a_plan_counterexample :
    (chunkFileTemporally [] (fun _ _ => (0, [])) (.num 5400) 20 30).map
        (fun r => r.chunks.map (fun c => (c.startTime, c.endTime, c.index))) =
      .ok [((0 : ℚ), (1230 : ℚ), 0), (1200, 2430, 1), (2400, 3630, 2),
        (3600, 4830, 3), (4800, 5400, 4)] ∧
    (1200 : ℚ) ≠ 1170 := by
  exact ⟨chunks_5400 [] (fun _ _ => (0, [])) (fun _ _ => rfl), by norm_num⟩

end CompendiumNotes
